import Mathlib

/-!
# Camera console: camera selection and prev/next navigation

A shallow embedding of `tgui/packages/tgui/interfaces/CameraConsole.js`:
the neighbour locator `prevNextCamera`, the camera selector `selectCameras`
and the part of the `CameraConsole` component that derives the state of the
previous/next buttons.

JavaScript values are embedded as follows.

* A string is the list of its UTF-16 code units (`JSString`); `===` on strings
  is equality of these lists and `<` is the lexicographic order on them.
* A camera `name` is a string or is missing (`undefined`): `JSVal`.
* An entry of a host-supplied camera array is a camera record or `null`: `Entry`.
* Reading a property of `null` throws a `TypeError`; functions that may throw
  return `Except JSError`.
* An array is a list; reading an index that is out of range (or negative)
  gives `undefined`.
-/

namespace Tgui

/-- A JavaScript string, as the sequence of its UTF-16 code units. -/
abbrev JSString := List Nat

/-- The UTF-16 code units of one Unicode character. -/
def codeUnits (c : Char) : List Nat :=
  if c.toNat < 0x10000 then [c.toNat]
  else [0xD800 + (c.toNat - 0x10000) / 0x400, 0xDC00 + (c.toNat - 0x10000) % 0x400]

/-- The JavaScript string denoted by a string literal. -/
def js (s : String) : JSString := s.toList.flatMap codeUnits

/-- A value that is either `undefined` (`none`) or a string. -/
abbrev JSVal := Option JSString

/-- Exceptions a JavaScript expression of this file can throw. -/
inductive JSError where
  | typeError
  deriving DecidableEq, Repr

deriving instance DecidableEq for Except

/-- A camera record. Only `name` may be missing. -/
structure Camera where
  name : JSVal
  z : Int
  x : Int
  y : Int
  status : JSString
  ref : JSString
  deriving DecidableEq, Repr

/-- An entry of a camera array: `null` (`none`) or a camera record. -/
abbrev Entry := Option Camera

/-- JavaScript truthiness of a string-or-undefined value: `undefined` and the
empty string are falsy, every other string is truthy. -/
def truthy : JSVal → Bool
  | none => false
  | some s => !s.isEmpty

/-- The expression `camera.name`: throws on `null`. -/
def getName : Entry → Except JSError JSVal
  | none => .error .typeError
  | some camera => .ok camera.name

/-- The expression `camera?.name`: `undefined` on `null` and on `undefined`. -/
def optName : Entry → JSVal
  | none => none
  | some camera => camera.name

/-- The expression `array[index]` for an integer index: `undefined` (`none`)
when the index is negative or not below the length. -/
def arrGet {α : Type} (array : List α) (index : Int) : Option α :=
  if index < 0 then none else array.get? index.toNat

/-- The expression `cameras[index]?.name`. -/
def nameAt (cameras : List Entry) (index : Int) : JSVal :=
  match arrGet cameras index with
  | none => none
  | some camera => optName camera

/-- The loop of `Array.prototype.findIndex`, from position `k` on: the index of
the first element satisfying the predicate, `-1` if there is none. -/
def findIndexFrom {α : Type} (predicate : α → Except JSError Bool) (k : Int) :
    List α → Except JSError Int
  | [] => .ok (-1)
  | value :: rest =>
    match predicate value with
    | .error e => .error e
    | .ok true => .ok k
    | .ok false => findIndexFrom predicate (k + 1) rest

/-- The builtin `Array.prototype.findIndex`. -/
def findIndex {α : Type} (predicate : α → Except JSError Bool) (array : List α) :
    Except JSError Int :=
  findIndexFrom predicate 0 array

/-- The arrow function `camera => camera.name === activeCamera.name`. -/
def sameName (activeCamera : Camera) (camera : Entry) : Except JSError Bool :=
  match getName camera with
  | .error e => .error e
  | .ok name => .ok (decide (name = activeCamera.name))

/-- The function `prevNextCamera`: the array it returns. -/
def prevNextCamera (cameras : List Entry) (activeCamera : Option Camera) :
    Except JSError (List JSVal) :=
  match activeCamera with
  | none => .ok []
  | some active =>
    match findIndex (sameName active) cameras with
    | .error e => .error e
    | .ok index => .ok [nameAt cameras (index - 1), nameAt cameras (index + 1)]

/-- The array destructuring `[prevCameraName, nextCameraName] = array`:
a position the array does not have is bound to `undefined`. -/
def destructure2 (array : List JSVal) : JSVal × JSVal :=
  ((array.get? 0).join, (array.get? 1).join)

/-! ## Helpers of `common/` used by `selectCameras` -/

/-- Modelled from the spec: `filter` of `common/collections`, which is not
among the sources. It keeps, in order, the elements for which the iteratee
returns a truthy value ("drop any record whose ..."). -/
def filter {α : Type} (iteratee : α → Except JSError Bool) :
    List α → Except JSError (List α)
  | [] => .ok []
  | value :: rest =>
    match iteratee value with
    | .error e => .error e
    | .ok keep =>
      match filter iteratee rest with
      | .error e => .error e
      | .ok result => .ok (if keep then value :: result else result)

/-- The comparison `a < b` of two JavaScript strings: lexicographic on code
units, a proper prefix being smaller. -/
def jsStrLt : JSString → JSString → Bool
  | [], [] => false
  | [], _ :: _ => true
  | _ :: _, [] => false
  | a :: s, b :: t => if a < b then true else if b < a then false else jsStrLt s t

/-- The comparison `a < b` of two string-or-undefined values: `undefined`
converts to `NaN`, which compares false with everything. -/
def jsLt : JSVal → JSVal → Bool
  | some s, some t => jsStrLt s t
  | _, _ => false

/-- Insert a (criterion, value) pair into a list sorted by criterion, after
every pair whose criterion is strictly smaller and before all others. -/
def orderedInsert {α : Type} (p : JSVal × α) : List (JSVal × α) → List (JSVal × α)
  | [] => [p]
  | q :: l => if jsLt q.1 p.1 then q :: orderedInsert p l else p :: q :: l

/-- A stable ascending sort of (criterion, value) pairs by criterion. -/
def sortCriteria {α : Type} : List (JSVal × α) → List (JSVal × α)
  | [] => []
  | p :: l => orderedInsert p (sortCriteria l)

/-- Evaluate the iteratee once on every element, pairing each element with its
sort criterion. -/
def collectCriteria {α : Type} (iteratee : α → Except JSError JSVal) :
    List α → Except JSError (List (JSVal × α))
  | [] => .ok []
  | value :: rest =>
    match iteratee value with
    | .error e => .error e
    | .ok criterion =>
      match collectCriteria iteratee rest with
      | .error e => .error e
      | .ok mapped => .ok ((criterion, value) :: mapped)

/-- Modelled from the spec: `sortBy` of `common/collections`, which is not
among the sources. It sorts "ascending by name using a stable lexicographic
(locale-naive byte/codepoint) comparison" of the values the iteratee returns. -/
def sortBy {α : Type} (iteratee : α → Except JSError JSVal) (array : List α) :
    Except JSError (List α) :=
  match collectCriteria iteratee array with
  | .error e => .error e
  | .ok mapped => .ok ((sortCriteria mapped).map Prod.snd)

/-- The method `String.prototype.includes`: `search` occurs in `s` as a
contiguous run of code units. -/
def includes : JSString → JSString → Bool
  | [], search => search.isEmpty
  | c :: s, search => search.isPrefixOf (c :: s) || includes s search

/-- Modelled from the spec: `createSearch` of `common/string`, which is not
among the sources. The predicate it returns is a "case-insensitive substring"
match of the query in the string the stringifier extracts; a missing string
does not match. The case folding `toLowerCase` is a parameter. -/
def createSearch {α : Type} (toLowerCase : JSString → JSString) (searchText : JSString)
    (stringifier : α → Except JSError JSVal) (obj : α) : Except JSError Bool :=
  match stringifier obj with
  | .error e => .error e
  | .ok none => .ok false
  | .ok (some str) => .ok (includes (toLowerCase str) (toLowerCase searchText))

/-- Modelled from the spec: `flow` of `common/fp`, which is not among the
sources. It composes the functions "as a pipeline", left to right, skipping
an entry that is falsy (`none`). -/
def flow {β : Type} : List (Option (β → Except JSError β)) → β → Except JSError β
  | [], input => .ok input
  | none :: funcs, input => flow funcs input
  | some func :: funcs, input =>
    match func input with
    | .error e => .error e
    | .ok output => flow funcs output

/-- The function `selectCameras`. An omitted `searchText` (`none`) takes the
default value `''`. -/
def selectCameras (toLowerCase : JSString → JSString) (cameras : List Entry)
    (searchText : Option JSString) : Except JSError (List Entry) :=
  let searchText := searchText.getD []
  let testSearch := createSearch toLowerCase searchText getName
  flow [
    some (filter (fun camera => .ok (truthy (optName camera)))),
    (if searchText.isEmpty then none else some (filter testSearch)),
    some (sortBy getName)
  ] cameras

/-- The data the host supplies to the interface. -/
structure Data where
  cameras : List Entry
  activeCamera : Option Camera
  mapRef : JSString

/-- What `CameraConsole` derives for its two navigation buttons: the names
bound by the destructuring and the `disabled` property of each button. -/
structure Toolbar where
  prevCameraName : JSVal
  nextCameraName : JSVal
  prevDisabled : Bool
  nextDisabled : Bool
  deriving DecidableEq, Repr

/-- The navigation part of the component `CameraConsole`. -/
def CameraConsole (toLowerCase : JSString → JSString) (data : Data) :
    Except JSError Toolbar :=
  match selectCameras toLowerCase data.cameras none with
  | .error e => .error e
  | .ok cameras =>
    match prevNextCamera cameras data.activeCamera with
    | .error e => .error e
    | .ok names =>
      let (prevCameraName, nextCameraName) := destructure2 names
      .ok { prevCameraName := prevCameraName
            nextCameraName := nextCameraName
            prevDisabled := !truthy prevCameraName
            nextDisabled := !truthy nextCameraName }

/-- A case folding for the examples: ASCII letters to lower case. -/
def asciiLower (s : JSString) : JSString :=
  s.map (fun u => if 65 ≤ u ∧ u ≤ 90 then u + 32 else u)

/-- A camera record with the given name and default other fields. -/
def cam (name : String) : Camera :=
  { name := some (js name), z := 1, x := 0, y := 0, status := [], ref := [] }

/-- Every criterion of the list is a string. -/
def StrKeys {α : Type} (l : List (JSVal × α)) : Prop :=
  ∀ p ∈ l, ∃ s : JSString, p.1 = some s

/-- The criterion of `p` is not greater than that of `q`. -/
def critLe {α : Type} (p q : JSVal × α) : Prop :=
  jsLt q.1 p.1 = false

/-- The value of the arrow function `camera => camera?.name` as a condition:
the entry is a record with a non-empty name. -/
def isNamed (camera : Entry) : Bool :=
  truthy (optName camera)

/-- The name of the entry contains the query, both folded to lower case; an
entry without a name does not match. -/
def nameMatches (toLowerCase : JSString → JSString) (searchText : JSString)
    (camera : Entry) : Bool :=
  match optName camera with
  | none => false
  | some str => includes (toLowerCase str) (toLowerCase searchText)

/-- Pair every entry with its name. -/
def withNames (cameras : List Entry) : List (JSVal × Entry) :=
  cameras.map (fun camera => (optName camera, camera))

/-- The entries in stable ascending order of their names. -/
def sortedByName (cameras : List Entry) : List Entry :=
  (sortCriteria (withNames cameras)).map Prod.snd

/-- The lexicographic order "less than or equal" on strings, by code units. -/
def LexLe (s t : JSString) : Prop :=
  s = t ∨ List.Lex (fun a b : Nat => a < b) s t

/-! ## The order on names -/

theorem jsStrLt_irrefl (s : JSString) : jsStrLt s s = false := by
  induction s with
  | nil => rfl
  | cons a s ih => simp [jsStrLt, ih]

/-- The comparison of strings is the lexicographic order on code units. -/
theorem jsStrLt_iff_lex (s t : JSString) :
    jsStrLt s t = true ↔ List.Lex (fun a b : Nat => a < b) s t := by
  induction s generalizing t with
  | nil =>
    cases t with
    | nil => simp [jsStrLt]
    | cons b t => simp [jsStrLt, List.Lex.nil]
  | cons a s ih =>
    cases t with
    | nil => simp [jsStrLt]
    | cons b t =>
      simp only [jsStrLt]
      rcases Nat.lt_trichotomy a b with hlt | heq | hgt
      · simp only [hlt, if_true, true_iff]
        exact List.Lex.rel hlt
      · subst heq
        simp only [Nat.lt_irrefl, if_false]
        rw [ih t]
        constructor
        · exact fun h => List.Lex.cons h
        · intro h
          cases h with
          | cons h2 => exact h2
          | rel h2 => exact absurd h2 (Nat.lt_irrefl a)
      · have hnlt : ¬ a < b := Nat.lt_asymm hgt
        simp only [hnlt, if_false, hgt, if_true]
        constructor
        · intro h; exact Bool.noConfusion h
        · intro h
          cases h with
          | cons h2 => exact absurd hgt (Nat.lt_irrefl a)
          | rel h2 => exact absurd h2 hnlt

theorem jsStrLt_asymm (s t : JSString) (h : jsStrLt s t = true) : jsStrLt t s = false := by
  induction s generalizing t with
  | nil => cases t <;> simp_all [jsStrLt]
  | cons a s ih =>
    cases t with
    | nil => simp [jsStrLt] at h
    | cons b t =>
      simp only [jsStrLt] at h ⊢
      rcases Nat.lt_trichotomy a b with hlt | heq | hgt
      · simp [hlt, Nat.lt_asymm hlt]
      · subst heq
        simp only [Nat.lt_irrefl, if_false] at h ⊢
        exact ih t h
      · simp [hgt, Nat.lt_asymm hgt] at h

/-- Transitivity of "not greater": `s ≤ t` and `t ≤ u` give `s ≤ u`. -/
theorem jsStrLe_trans (s t u : JSString) (hst : jsStrLt t s = false)
    (htu : jsStrLt u t = false) : jsStrLt u s = false := by
  induction s generalizing t u with
  | nil => cases u <;> simp [jsStrLt]
  | cons a s ih =>
    cases t with
    | nil => simp [jsStrLt] at hst
    | cons b t =>
      cases u with
      | nil => simp [jsStrLt] at htu
      | cons c u =>
        simp only [jsStrLt] at hst htu ⊢
        rcases Nat.lt_trichotomy b a with hba | hba | hba
        · simp [hba] at hst
        · subst hba
          simp only [Nat.lt_irrefl, if_false] at hst
          rcases Nat.lt_trichotomy c b with hcb | hcb | hcb
          · simp [hcb] at htu
          · subst hcb
            simp only [Nat.lt_irrefl, if_false] at htu ⊢
            exact ih t u hst htu
          · simp [hcb, Nat.lt_asymm hcb]
        · rcases Nat.lt_trichotomy c b with hcb | hcb | hcb
          · simp [hcb] at htu
          · subst hcb
            simp [hba, Nat.lt_asymm hba]
          · have hac : a < c := Nat.lt_trans hba hcb
            simp [hac, Nat.lt_asymm hac]

theorem jsLt_asymm (a b : JSVal) (h : jsLt a b = true) : jsLt b a = false := by
  cases a with
  | none => simp [jsLt] at h
  | some s =>
    cases b with
    | none => simp [jsLt] at h
    | some t => exact jsStrLt_asymm s t h

/-- Transitivity of "not greater" on values, the middle one being a string. -/
theorem jsLe_trans (a c : JSVal) (t : JSString) (hab : jsLt (some t) a = false)
    (hbc : jsLt c (some t) = false) : jsLt c a = false := by
  cases a with
  | none => cases c <;> rfl
  | some s =>
    cases c with
    | none => rfl
    | some u => exact jsStrLe_trans s t u hab hbc

/-! ## The stable sort of (criterion, value) pairs -/

theorem mem_orderedInsert {α : Type} (p x : JSVal × α) (l : List (JSVal × α)) :
    x ∈ orderedInsert p l ↔ x = p ∨ x ∈ l := by
  induction l with
  | nil => simp [orderedInsert]
  | cons q l ih =>
    simp only [orderedInsert]
    split
    · simp only [List.mem_cons, ih]
      tauto
    · simp [List.mem_cons]

theorem orderedInsert_perm {α : Type} (p : JSVal × α) (l : List (JSVal × α)) :
    (orderedInsert p l).Perm (p :: l) := by
  induction l with
  | nil => exact List.Perm.refl _
  | cons q l ih =>
    simp only [orderedInsert]
    split
    · exact (List.Perm.cons q ih).trans (List.Perm.swap p q l)
    · exact List.Perm.refl _

theorem sortCriteria_perm {α : Type} (l : List (JSVal × α)) :
    (sortCriteria l).Perm l := by
  induction l with
  | nil => exact List.Perm.refl _
  | cons p l ih => exact (orderedInsert_perm p (sortCriteria l)).trans (List.Perm.cons p ih)

theorem StrKeys_cons {α : Type} (p : JSVal × α) (l : List (JSVal × α)) :
    StrKeys (p :: l) ↔ (∃ s : JSString, p.1 = some s) ∧ StrKeys l := by
  simp [StrKeys]

theorem StrKeys_of_perm {α : Type} (l m : List (JSVal × α)) (h : l.Perm m)
    (hm : StrKeys m) : StrKeys l :=
  fun p hp => hm p (h.mem_iff.mp hp)

/-- Inserting in front when nothing in the list is smaller. -/
theorem orderedInsert_of_le {α : Type} (p : JSVal × α) (l : List (JSVal × α))
    (h : ∀ x ∈ l, critLe p x) : orderedInsert p l = p :: l := by
  cases l with
  | nil => rfl
  | cons q l =>
    have hq : jsLt q.1 p.1 = false := h q (by simp)
    simp [orderedInsert, hq]

theorem orderedInsert_sorted {α : Type} (p : JSVal × α) (l : List (JSVal × α))
    (hkeys : StrKeys l) (hsorted : l.Pairwise critLe) :
    (orderedInsert p l).Pairwise critLe := by
  induction l with
  | nil => simp [orderedInsert]
  | cons q l ih =>
    obtain ⟨⟨t, ht⟩, hkl⟩ := (StrKeys_cons q l).mp hkeys
    obtain ⟨hql, hl⟩ := List.pairwise_cons.mp hsorted
    simp only [orderedInsert]
    split
    · rename_i hlt
      refine List.pairwise_cons.mpr ⟨?_, ih hkl hl⟩
      intro x hx
      rcases (mem_orderedInsert p x l).mp hx with rfl | hxl
      · exact jsLt_asymm _ _ hlt
      · exact hql x hxl
    · rename_i hnlt
      have hpq : jsLt q.1 p.1 = false := by simpa using hnlt
      refine List.pairwise_cons.mpr ⟨?_, hsorted⟩
      intro x hx
      rcases List.mem_cons.mp hx with rfl | hxl
      · exact hpq
      · have hqx : jsLt x.1 q.1 = false := hql x hxl
        rw [ht] at hpq hqx
        exact jsLe_trans p.1 x.1 t hpq hqx

theorem sortCriteria_sorted {α : Type} (l : List (JSVal × α)) (hkeys : StrKeys l) :
    (sortCriteria l).Pairwise critLe := by
  induction l with
  | nil => exact List.Pairwise.nil
  | cons p l ih =>
    obtain ⟨_, hkl⟩ := (StrKeys_cons p l).mp hkeys
    exact orderedInsert_sorted p (sortCriteria l)
      (StrKeys_of_perm _ _ (sortCriteria_perm l) hkl) (ih hkl)

/-- Sorting a sorted list changes nothing. -/
theorem sortCriteria_of_sorted {α : Type} (l : List (JSVal × α))
    (hsorted : l.Pairwise critLe) : sortCriteria l = l := by
  induction l with
  | nil => rfl
  | cons p l ih =>
    obtain ⟨hpl, hl⟩ := List.pairwise_cons.mp hsorted
    simp only [sortCriteria, ih hl]
    exact orderedInsert_of_le p l hpl

/-- Filtering commutes with insertion into a sorted list. -/
theorem filter_orderedInsert {α : Type} (f : JSVal × α → Bool) (p : JSVal × α)
    (l : List (JSVal × α)) (hkeys : StrKeys l) (hsorted : l.Pairwise critLe) :
    (orderedInsert p l).filter f
      = if f p then orderedInsert p (l.filter f) else l.filter f := by
  induction l with
  | nil => cases hp : f p <;> simp [orderedInsert, hp]
  | cons q l ih =>
    obtain ⟨⟨t, ht⟩, hkl⟩ := (StrKeys_cons q l).mp hkeys
    obtain ⟨hql, hl⟩ := List.pairwise_cons.mp hsorted
    by_cases hlt : jsLt q.1 p.1 = true
    · have hins : orderedInsert p (q :: l) = q :: orderedInsert p l := by
        simp [orderedInsert, hlt]
      rw [hins]
      cases hq : f q <;> cases hp : f p <;>
        simp [List.filter_cons, hq, hp, ih hkl hl, orderedInsert, hlt]
    · have hpq : jsLt q.1 p.1 = false := by simpa using hlt
      have hins : orderedInsert p (q :: l) = p :: q :: l := by
        simp [orderedInsert, hpq]
      rw [hins]
      cases hp : f p
      · simp [List.filter_cons, hp]
      · have hfront : orderedInsert p ((q :: l).filter f) = p :: (q :: l).filter f := by
          apply orderedInsert_of_le
          intro x hx
          have hxmem : x ∈ q :: l := (List.mem_filter.mp hx).1
          rcases List.mem_cons.mp hxmem with rfl | hxl
          · exact hpq
          · have hqx : jsLt x.1 q.1 = false := hql x hxl
            rw [ht] at hpq hqx
            exact jsLe_trans p.1 x.1 t hpq hqx
        simp only [if_true, hfront]
        simp [List.filter_cons, hp]

/-- A stable sort commutes with filtering. -/
theorem sortCriteria_filter {α : Type} (f : JSVal × α → Bool) (l : List (JSVal × α))
    (hkeys : StrKeys l) :
    sortCriteria (l.filter f) = (sortCriteria l).filter f := by
  induction l with
  | nil => rfl
  | cons p l ih =>
    obtain ⟨_, hkl⟩ := (StrKeys_cons p l).mp hkeys
    have hs := filter_orderedInsert f p (sortCriteria l)
      (StrKeys_of_perm _ _ (sortCriteria_perm l) hkl) (sortCriteria_sorted l hkl)
    simp only [sortCriteria]
    rw [hs]
    cases hp : f p
    · simp [List.filter_cons, hp, ih hkl]
    · simp [List.filter_cons, hp, sortCriteria, ih hkl]

/-! ## The camera selector -/

/-- A filter whose iteratee never throws is the pure filter. -/
theorem filter_ok {α : Type} (iteratee : α → Except JSError Bool) (p : α → Bool)
    (l : List α) (h : ∀ x ∈ l, iteratee x = .ok (p x)) :
    filter iteratee l = .ok (l.filter p) := by
  induction l with
  | nil => rfl
  | cons x l ih =>
    have hx : iteratee x = .ok (p x) := h x (by simp)
    have hl := ih (fun y hy => h y (by simp [hy]))
    simp only [filter, hx, hl]
    cases hp : p x <;> simp [List.filter_cons, hp]

theorem collectCriteria_ok {α : Type} (iteratee : α → Except JSError JSVal)
    (k : α → JSVal) (l : List α) (h : ∀ x ∈ l, iteratee x = .ok (k x)) :
    collectCriteria iteratee l = .ok (l.map (fun x => (k x, x))) := by
  induction l with
  | nil => rfl
  | cons x l ih =>
    have hx : iteratee x = .ok (k x) := h x (by simp)
    have hl := ih (fun y hy => h y (by simp [hy]))
    simp only [collectCriteria, hx, hl, List.map_cons]

/-- A named entry is a record whose name is a non-empty string. -/
theorem isNamed_iff (e : Entry) :
    isNamed e = true ↔ ∃ c s, e = some c ∧ c.name = some s ∧ s ≠ [] := by
  cases e with
  | none => simp [isNamed, optName, truthy]
  | some c =>
    cases hn : c.name with
    | none => simp [isNamed, optName, truthy, hn]
    | some s => cases s <;> simp [isNamed, optName, truthy, hn]

theorem getName_of_isNamed (e : Entry) (h : isNamed e = true) :
    getName e = .ok (optName e) := by
  obtain ⟨c, s, rfl, _, _⟩ := (isNamed_iff e).mp h
  rfl

theorem createSearch_of_isNamed (toLowerCase : JSString → JSString) (q : JSString)
    (e : Entry) (h : isNamed e = true) :
    createSearch toLowerCase q getName e = .ok (nameMatches toLowerCase q e) := by
  obtain ⟨c, s, rfl, hs, _⟩ := (isNamed_iff e).mp h
  simp [createSearch, getName, nameMatches, optName, hs]

theorem sortBy_getName_ok (l : List Entry) (h : ∀ e ∈ l, isNamed e = true) :
    sortBy getName l = .ok (sortedByName l) := by
  have hc := collectCriteria_ok getName optName l
    (fun e he => getName_of_isNamed e (h e he))
  simp only [sortBy, hc]
  rfl

/-- The entries `selectCameras` keeps, before sorting. -/
theorem kept_isNamed (toLowerCase : JSString → JSString) (cams : List Entry)
    (q : JSString) :
    ∀ e ∈ (if q.isEmpty then cams.filter isNamed
            else (cams.filter isNamed).filter (nameMatches toLowerCase q)),
      isNamed e = true := by
  intro e he
  split at he
  · exact (List.mem_filter.mp he).2
  · exact (List.mem_filter.mp (List.mem_filter.mp he).1).2

/-- The value of `selectCameras`: it never throws, and returns the named
entries (that match the query, when there is one) in stable name order. -/
theorem selectCameras_eq (toLowerCase : JSString → JSString) (cams : List Entry)
    (searchText : Option JSString) :
    selectCameras toLowerCase cams searchText =
      .ok (sortedByName
        (if (searchText.getD []).isEmpty then cams.filter isNamed
         else (cams.filter isNamed).filter (nameMatches toLowerCase (searchText.getD [])))) := by
  have h1 : filter (fun camera : Entry => Except.ok (truthy (optName camera))) cams
      = .ok (cams.filter isNamed) :=
    filter_ok _ isNamed cams (fun _ _ => rfl)
  have hk := kept_isNamed toLowerCase cams (searchText.getD [])
  by_cases hq : (searchText.getD []).isEmpty = true
  · simp only [hq, if_true] at hk ⊢
    simp only [selectCameras, hq, if_true, flow, h1]
    rw [sortBy_getName_ok _ hk]
  · have hq2 : (searchText.getD []).isEmpty = false := by simpa using hq
    simp only [hq2, Bool.false_eq_true, if_false] at hk ⊢
    have h2 : filter (createSearch toLowerCase (searchText.getD []) getName)
        (cams.filter isNamed)
        = .ok ((cams.filter isNamed).filter (nameMatches toLowerCase (searchText.getD []))) :=
      filter_ok _ _ _ (fun e he =>
        createSearch_of_isNamed toLowerCase _ e (List.mem_filter.mp he).2)
    simp only [selectCameras, hq2, Bool.false_eq_true, if_false, flow, h1, h2]
    rw [sortBy_getName_ok _ hk]

theorem StrKeys_withNames (l : List Entry) (h : ∀ e ∈ l, isNamed e = true) :
    StrKeys (withNames l) := by
  intro p hp
  obtain ⟨e, he, rfl⟩ := List.mem_map.mp hp
  obtain ⟨c, s, rfl, hs, _⟩ := (isNamed_iff e).mp (h e he)
  exact ⟨s, hs⟩

theorem sortedByName_perm (l : List Entry) : (sortedByName l).Perm l := by
  have h := (sortCriteria_perm (withNames l)).map Prod.snd
  have hid : (withNames l).map Prod.snd = l := by
    simp [withNames, List.map_map, Function.comp_def]
  rw [hid] at h
  exact h

theorem mem_sortedByName (l : List Entry) (e : Entry) : e ∈ sortedByName l ↔ e ∈ l :=
  (sortedByName_perm l).mem_iff

/-- Pairing the sorted entries with their names gives the sorted pairs. -/
theorem withNames_sortedByName (l : List Entry) :
    withNames (sortedByName l) = sortCriteria (withNames l) := by
  have hform : ∀ p ∈ sortCriteria (withNames l), (optName p.2, p.2) = p := by
    intro p hp
    have hp2 : p ∈ withNames l := (sortCriteria_perm (withNames l)).mem_iff.mp hp
    obtain ⟨e, _, rfl⟩ := List.mem_map.mp hp2
    rfl
  have hmap : (sortCriteria (withNames l)).map (fun p => (optName p.2, p.2))
      = (sortCriteria (withNames l)).map id :=
    List.map_congr_left (fun p hp => hform p hp)
  rw [List.map_id] at hmap
  show ((sortCriteria (withNames l)).map Prod.snd).map (fun camera => (optName camera, camera)) = _
  rw [List.map_map]
  exact hmap

/-- Sorting the result of a sort again changes nothing. -/
theorem sortedByName_idem (l : List Entry) (h : ∀ e ∈ l, isNamed e = true) :
    sortedByName (sortedByName l) = sortedByName l := by
  have hs := sortCriteria_sorted (withNames l) (StrKeys_withNames l h)
  show (sortCriteria (withNames (sortedByName l))).map Prod.snd = sortedByName l
  rw [withNames_sortedByName, sortCriteria_of_sorted _ hs]
  rfl

/-- Sorting commutes with filtering the entries. -/
theorem sortedByName_filter (f : Entry → Bool) (l : List Entry)
    (h : ∀ e ∈ l, isNamed e = true) :
    sortedByName (l.filter f) = (sortedByName l).filter f := by
  have hw : withNames (l.filter f) = (withNames l).filter (fun p => f p.2) := by
    simp [withNames, List.filter_map, Function.comp_def]
  show (sortCriteria (withNames (l.filter f))).map Prod.snd = _
  rw [hw, sortCriteria_filter _ _ (StrKeys_withNames l h)]
  simp [sortedByName, List.filter_map, Function.comp_def]

/-- Two positions of a sorted result carry names in order. -/
theorem sortedByName_pairwise (l : List Entry) (h : ∀ e ∈ l, isNamed e = true) :
    (sortedByName l).Pairwise (fun a b => jsLt (optName b) (optName a) = false) := by
  have hs := sortCriteria_sorted (withNames l) (StrKeys_withNames l h)
  rw [← withNames_sortedByName] at hs
  exact (List.pairwise_map.mp hs)

/-- Strings that are not in strictly descending order are in ascending order. -/
theorem LexLe_of_not_lt (s t : JSString) (h : jsStrLt t s = false) : LexLe s t := by
  induction s generalizing t with
  | nil =>
    cases t with
    | nil => exact Or.inl rfl
    | cons b t => exact Or.inr List.Lex.nil
  | cons a s ih =>
    cases t with
    | nil => simp [jsStrLt] at h
    | cons b t =>
      simp only [jsStrLt] at h
      rcases Nat.lt_trichotomy b a with hba | hba | hba
      · simp [hba] at h
      · subst hba
        simp only [Nat.lt_irrefl, if_false] at h
        rcases ih t h with heq | hlt
        · exact Or.inl (by rw [heq])
        · exact Or.inr (List.Lex.cons hlt)
      · exact Or.inr (List.Lex.rel hba)

/-- The method `includes` decides whether the search string is a contiguous
part of the string. -/
theorem includes_iff_contiguous (s t : JSString) : includes s t = true ↔ t <:+: s := by
  induction s with
  | nil => cases t <;> simp [includes]
  | cons c s ih =>
    simp only [includes, Bool.or_eq_true, List.isPrefixOf_iff_prefix, ih]
    exact List.infix_cons_iff.symm

/-- Two positions of a sorted result hold named records whose names are in
lexicographic order. -/
theorem sortedByName_ordered (l : List Entry) (h : ∀ e ∈ l, isNamed e = true)
    (i j : Nat) (hij : i < j) (hj : j < (sortedByName l).length) :
    ∃ c d s t, (sortedByName l)[i]? = some (some c) ∧ (sortedByName l)[j]? = some (some d) ∧
      c.name = some s ∧ d.name = some t ∧ LexLe s t := by
  have hi : i < (sortedByName l).length := Nat.lt_trans hij hj
  have hrel := List.pairwise_iff_getElem.mp (sortedByName_pairwise l h) i j hi hj hij
  have hmi : (sortedByName l)[i] ∈ l :=
    (mem_sortedByName l _).mp (List.getElem_mem hi)
  have hmj : (sortedByName l)[j] ∈ l :=
    (mem_sortedByName l _).mp (List.getElem_mem hj)
  obtain ⟨c, s, hc, hs, _⟩ := (isNamed_iff _).mp (h _ hmi)
  obtain ⟨d, t, hd, ht, _⟩ := (isNamed_iff _).mp (h _ hmj)
  refine ⟨c, d, s, t, ?_, ?_, hs, ht, ?_⟩
  · rw [List.getElem?_eq_getElem hi, hc]
  · rw [List.getElem?_eq_getElem hj, hd]
  · rw [hc, hd] at hrel
    simp only [optName, hs, ht, jsLt] at hrel
    exact LexLe_of_not_lt s t hrel

/-- The value of `selectCameras` for the empty search text. -/
theorem selectCameras_eq_empty (toLowerCase : JSString → JSString) (cams : List Entry) :
    selectCameras toLowerCase cams (some []) = .ok (sortedByName (cams.filter isNamed)) :=
  selectCameras_eq toLowerCase cams (some [])

/-- Occurrences of an entry among the named entries of an array. -/
theorem countP_filter_isNamed (cams : List Entry) (e : Entry) :
    (cams.filter isNamed).countP (fun x => decide (x = e))
      = if isNamed e = true then cams.countP (fun x => decide (x = e)) else 0 := by
  induction cams with
  | nil => simp
  | cons x xs ih =>
    by_cases hx : isNamed x = true
    · rw [List.filter_cons_of_pos hx, List.countP_cons, List.countP_cons, ih]
      by_cases hxe : x = e
      · subst hxe
        simp [hx]
      · by_cases he : isNamed e = true <;> simp [he, hxe]
    · rw [List.filter_cons_of_neg hx, List.countP_cons, ih]
      by_cases hxe : x = e
      · subst hxe
        simp [hx]
      · simp [hxe]

/-! ## The neighbour locator -/

theorem arrGet_neg {α : Type} (l : List α) (k : Int) (hk : k < 0) : arrGet l k = none := by
  simp [arrGet, hk]

theorem arrGet_ofNat {α : Type} (l : List α) (n : Nat) : arrGet l (n : Int) = l[n]? := by
  simp [arrGet]

theorem nameAt_neg (cameras : List Entry) (k : Int) (hk : k < 0) : nameAt cameras k = none := by
  simp [nameAt, arrGet_neg cameras k hk]

theorem nameAt_map_some (cams : List Camera) (n : Nat) :
    nameAt (cams.map some) (n : Int) = (cams[n]?).bind Camera.name := by
  simp only [nameAt, arrGet_ofNat]
  cases h : cams[n]? with
  | none => simp [h]
  | some c => simp [h, optName]

theorem sameName_some (active c : Camera) :
    sameName active (some c) = .ok (decide (c.name = active.name)) := rfl

/-- The search loop returns the first matching position, counted from `k`. -/
theorem findIndexFrom_first (active : Camera) (cams : List Camera) (k : Int) (i : Nat)
    (hmatch : ∃ c, cams[i]? = some c ∧ c.name = active.name)
    (hfirst : ∀ j, j < i → ∀ c, cams[j]? = some c → c.name ≠ active.name) :
    findIndexFrom (sameName active) k (cams.map some) = .ok (k + i) := by
  induction cams generalizing k i with
  | nil => obtain ⟨c, hc, _⟩ := hmatch; simp at hc
  | cons x xs ih =>
    cases i with
    | zero =>
      obtain ⟨c, hc, hn⟩ := hmatch
      simp at hc
      subst hc
      simp [findIndexFrom, sameName_some, hn]
    | succ i =>
      have hx : x.name ≠ active.name := hfirst 0 (Nat.succ_pos i) x (by simp)
      have hrec := ih (k + 1) i (by simpa using hmatch)
        (fun j hj c hc => hfirst (j + 1) (Nat.succ_lt_succ hj) c (by simpa using hc))
      simp only [List.map_cons, findIndexFrom, sameName_some, hx, decide_False]
      rw [hrec]
      congr 1
      push_cast
      ring

/-- The search loop returns `-1` when no record has the active camera's name. -/
theorem findIndexFrom_absent (active : Camera) (cams : List Camera) (k : Int)
    (h : ∀ c ∈ cams, c.name ≠ active.name) :
    findIndexFrom (sameName active) k (cams.map some) = .ok (-1) := by
  induction cams generalizing k with
  | nil => rfl
  | cons x xs ih =>
    have hx : x.name ≠ active.name := h x (by simp)
    simp only [List.map_cons, findIndexFrom, sameName_some, hx, decide_False]
    exact ih (k + 1) (fun c hc => h c (by simp [hc]))

/-- The result of `prevNextCamera` when the first match is at position `i`. -/
theorem prevNextCamera_at (active : Camera) (cams : List Camera) (i : Nat)
    (hmatch : ∃ c, cams[i]? = some c ∧ c.name = active.name)
    (hfirst : ∀ j, j < i → ∀ c, cams[j]? = some c → c.name ≠ active.name) :
    prevNextCamera (cams.map some) (some active) =
      .ok [if 0 < i then (cams[i - 1]?).bind Camera.name else none,
           (cams[i + 1]?).bind Camera.name] := by
  have hidx := findIndexFrom_first active cams 0 i hmatch hfirst
  simp only [prevNextCamera, findIndex, hidx]
  congr 2
  · cases i with
    | zero => simp [nameAt_neg]
    | succ i =>
      have : (0 : Int) + ((i + 1 : Nat) : Int) - 1 = (i : Nat) := by push_cast; ring
      rw [this, nameAt_map_some]
      simp
  · have : (0 : Int) + (i : Int) + 1 = ((i + 1 : Nat) : Int) := by push_cast; ring
    rw [this, nameAt_map_some]

/-- A record with a given property has a first position. -/
theorem exists_first_index (cams : List Camera) (P : Camera → Prop)
    (h : ∃ c ∈ cams, P c) :
    ∃ i : Nat, (∃ c, cams[i]? = some c ∧ P c) ∧ ∀ j : Nat, j < i → ∀ c, cams[j]? = some c → ¬ P c := by
  classical
  induction cams with
  | nil => obtain ⟨c, hc, _⟩ := h; simp at hc
  | cons x xs ih =>
    by_cases hx : P x
    · exact ⟨0, ⟨x, by simp, hx⟩, fun j hj => absurd hj (Nat.not_lt_zero j)⟩
    · obtain ⟨c, hc, hPc⟩ := h
      have hc2 : c ∈ xs := by
        rcases List.mem_cons.mp hc with rfl | hmem
        · exact absurd hPc hx
        · exact hmem
      obtain ⟨i, ⟨d, hd, hPd⟩, hfirst⟩ := ih ⟨c, hc2, hPc⟩
      refine ⟨i + 1, ⟨d, by simpa using hd, hPd⟩, ?_⟩
      intro j hj e he
      cases j with
      | zero => simp at he; subst he; exact hx
      | succ j => exact hfirst j (Nat.lt_of_succ_lt_succ hj) e (by simpa using he)

/-- In an array with pairwise distinct names, a name fixes its position. -/
theorem index_unique (cams : List Camera) (hdistinct : (cams.map Camera.name).Nodup)
    (j k : Nat) (c d : Camera) (hj : cams[j]? = some c) (hk : cams[k]? = some d)
    (hname : c.name = d.name) : j = k := by
  have hj2 : (cams.map Camera.name)[j]? = some c.name := by simp [hj]
  have hk2 : (cams.map Camera.name)[k]? = some c.name := by simp [hk, hname]
  have hjlt : j < (cams.map Camera.name).length := by
    by_contra hge
    rw [List.getElem?_eq_none (Nat.le_of_not_lt hge)] at hj2
    exact Option.noConfusion hj2
  have hklt : k < (cams.map Camera.name).length := by
    by_contra hge
    rw [List.getElem?_eq_none (Nat.le_of_not_lt hge)] at hk2
    exact Option.noConfusion hk2
  rcases Nat.lt_trichotomy j k with hlt | heq | hgt
  · exact absurd (hj2.trans hk2.symm)
      (List.nodup_iff_getElem?_ne_getElem?.mp hdistinct j k hlt hklt)
  · exact heq
  · exact absurd (hk2.trans hj2.symm)
      (List.nodup_iff_getElem?_ne_getElem?.mp hdistinct k j hgt hjlt)

/-- An element read from an array belongs to it. -/
theorem arrGet_mem {α : Type} (l : List α) (k : Int) (x : α) (h : arrGet l k = some x) :
    x ∈ l := by
  unfold arrGet at h
  split at h
  · exact Option.noConfusion h
  · exact List.get?_mem h

/-- On an array of named records the search for the active camera never throws. -/
theorem findIndexFrom_named (active : Camera) (l : List Entry) (k : Int)
    (h : ∀ e ∈ l, isNamed e = true) :
    ∃ index, findIndexFrom (sameName active) k l = .ok index := by
  induction l generalizing k with
  | nil => exact ⟨-1, rfl⟩
  | cons x xs ih =>
    obtain ⟨c, s, rfl, _, _⟩ := (isNamed_iff x).mp (h x (by simp))
    by_cases hc : c.name = active.name
    · exact ⟨k, by simp [findIndexFrom, sameName_some, hc]⟩
    · obtain ⟨index, hidx⟩ := ih (k + 1) (fun e he => h e (by simp [he]))
      exact ⟨index, by simp [findIndexFrom, sameName_some, hc, hidx]⟩

/-- On an array of named records, the name read at an index is a non-empty
string when the index holds a record and `undefined` when it holds none. -/
theorem nameAt_named (l : List Entry) (h : ∀ e ∈ l, isNamed e = true) (k : Int) :
    (arrGet l k = none ∧ nameAt l k = none) ∨
    (∃ e s, arrGet l k = some e ∧ nameAt l k = some s ∧ s ≠ [] ∧ optName e = some s) := by
  cases hk : arrGet l k with
  | none => exact Or.inl ⟨rfl, by simp [nameAt, hk]⟩
  | some e =>
    obtain ⟨c, s, rfl, hs, hne⟩ := (isNamed_iff e).mp (h e (arrGet_mem l k e hk))
    exact Or.inr ⟨some c, s, rfl, by simp [nameAt, hk, optName, hs], hne, hs⟩

theorem truthy_iff (v : JSVal) : truthy v = true ↔ ∃ s, v = some s ∧ s ≠ [] := by
  cases v with
  | none => simp [truthy]
  | some s => cases s <;> simp [truthy]

/-- C6 (as stated): with no active camera the returned array is not the
two-element array `[undefined, undefined]`. -/
theorem noActive_result_ne_pair :
    prevNextCamera [] none ≠ .ok [none, none] := by
  decide

/-- C6 (amended): for every camera array, including one with `null` entries,
`prevNextCamera` with no active camera returns the empty array, and the two
names destructured from that array are both `undefined`. -/
theorem prevNextCamera_null (cameras : List Entry) :
    prevNextCamera cameras none = .ok [] ∧
    (destructure2 []).1 = none ∧ (destructure2 []).2 = none :=
  ⟨rfl, rfl, rfl⟩

/-- C7: when the first record named like the active camera is at position `i`,
`prevNextCamera` returns `[prev, next]`, where `prev` is the name of the record
at `i - 1` if `0 < i` and `undefined` otherwise, and `next` is the name of the
record at `i + 1` if `i + 1` is below the length and `undefined` otherwise. -/
theorem prevNextCamera_found (cams : List Camera) (active : Camera) (i : Nat)
    (hmatch : ∃ c, cams[i]? = some c ∧ c.name = active.name)
    (hfirst : ∀ j : Nat, j < i → ∀ c, cams[j]? = some c → c.name ≠ active.name) :
    prevNextCamera (cams.map some) (some active) =
      .ok [if 0 < i then (cams[i - 1]?).bind Camera.name else none,
           if i + 1 < cams.length then (cams[i + 1]?).bind Camera.name else none] := by
  rw [prevNextCamera_at active cams i hmatch hfirst]
  by_cases h : i + 1 < cams.length
  · simp [h]
  · have hnone : cams[i + 1]? = none := List.getElem?_eq_none (Nat.le_of_not_lt h)
    simp [h, hnone]

/-- C7, on the array `[A, B, C]`: active `B` gives `["A", "C"]`, active `A` gives
`[undefined, "B"]` and active `C` gives `["B", undefined]`. -/
theorem prevNextCamera_found_witness :
    prevNextCamera ([cam "A", cam "B", cam "C"].map some) (some (cam "B"))
      = .ok [some (js "A"), some (js "C")] ∧
    prevNextCamera ([cam "A", cam "B", cam "C"].map some) (some (cam "A"))
      = .ok [none, some (js "B")] ∧
    prevNextCamera ([cam "A", cam "B", cam "C"].map some) (some (cam "C"))
      = .ok [some (js "B"), none] := by
  refine ⟨?_, ?_, ?_⟩
  · refine (prevNextCamera_found [cam "A", cam "B", cam "C"] (cam "B") 1
      ⟨cam "B", by decide, rfl⟩ ?_).trans (by decide)
    intro j hj c hc
    interval_cases j
    simp at hc
    subst hc
    decide
  · refine (prevNextCamera_found [cam "A", cam "B", cam "C"] (cam "A") 0
      ⟨cam "A", by decide, rfl⟩ ?_).trans (by decide)
    intro j hj
    exact absurd hj (Nat.not_lt_zero j)
  · refine (prevNextCamera_found [cam "A", cam "B", cam "C"] (cam "C") 2
      ⟨cam "C", by decide, rfl⟩ ?_).trans (by decide)
    intro j hj c hc
    interval_cases j
    · simp at hc
      subst hc
      decide
    · simp at hc
      subst hc
      decide

/-- C8: when no record has the active camera's name the lookup index is `-1`,
so `prevNextCamera` returns the names read at index `-1` and at index `0`: the
first is `undefined`, the second is the name of the first record (`undefined`
when the array is empty). -/
theorem prevNextCamera_absent (cams : List Camera) (active : Camera)
    (habsent : ∀ c ∈ cams, c.name ≠ active.name) :
    findIndex (sameName active) (cams.map some) = .ok (-1) ∧
    prevNextCamera (cams.map some) (some active)
      = .ok [nameAt (cams.map some) (-1), nameAt (cams.map some) 0] ∧
    nameAt (cams.map some) (-1) = none ∧
    nameAt (cams.map some) 0 = (cams.head?).bind Camera.name := by
  have hidx : findIndex (sameName active) (cams.map some) = .ok (-1) :=
    findIndexFrom_absent active cams 0 habsent
  refine ⟨hidx, ?_, nameAt_neg _ _ (by decide), ?_⟩
  · simp only [prevNextCamera, hidx]
    rfl
  · have h0 := nameAt_map_some cams 0
    simp only [Nat.cast_zero] at h0
    rw [h0]
    cases cams <;> simp

/-- C8, on the array `[A, B]` with active camera `Z`: the result is
`[undefined, "A"]`. -/
theorem prevNextCamera_absent_witness :
    prevNextCamera ([cam "A", cam "B"].map some) (some (cam "Z"))
      = .ok [nameAt ([cam "A", cam "B"].map some) (-1), nameAt ([cam "A", cam "B"].map some) 0] ∧
    nameAt ([cam "A", cam "B"].map some) 0 = some (js "A") :=
  have h := prevNextCamera_absent [cam "A", cam "B"] (cam "Z") (by decide)
  ⟨h.2.1, by decide⟩

/-- C10: on an array with pairwise distinct names and an active camera whose
name occurs in it, `prevNextCamera` returns a pair `[prev, next]` such that, if
`next` is a defined name, the previous name computed for any active camera of
that name is the original active camera's name, and, if `prev` is a defined
name, the next name computed for any active camera of that name is the original
active camera's name. -/
theorem prevNextCamera_inverse (cams : List Camera) (a : Camera)
    (hdistinct : (cams.map Camera.name).Nodup)
    (hocc : ∃ c ∈ cams, c.name = a.name) :
    ∃ prev next, prevNextCamera (cams.map some) (some a) = .ok [prev, next] ∧
      (∀ n, next = some n → ∀ b : Camera, b.name = some n →
        ∃ next2, prevNextCamera (cams.map some) (some b) = .ok [a.name, next2]) ∧
      (∀ p, prev = some p → ∀ b : Camera, b.name = some p →
        ∃ prev2, prevNextCamera (cams.map some) (some b) = .ok [prev2, a.name]) := by
  obtain ⟨i, ⟨c0, hc0, hn0⟩, hfirst⟩ :=
    exists_first_index cams (fun c => c.name = a.name) hocc
  refine ⟨_, _, prevNextCamera_at a cams i ⟨c0, hc0, hn0⟩ hfirst, ?_, ?_⟩
  · intro n hn b hb
    cases hd : cams[i + 1]? with
    | none => rw [hd] at hn; exact Option.noConfusion hn
    | some d =>
      rw [hd] at hn
      have hdn : d.name = some n := hn
      have hat := prevNextCamera_at b cams (i + 1) ⟨d, hd, hdn.trans hb.symm⟩
        (fun j hj c hc hcn => by
          have := index_unique cams hdistinct j (i + 1) c d hc hd
            (hcn.trans (hb.trans hdn.symm))
          omega)
      refine ⟨(cams[i + 1 + 1]?).bind Camera.name, hat.trans ?_⟩
      simp [hc0, hn0]
  · intro p hp b hb
    cases i with
    | zero => simp at hp
    | succ i =>
      simp only [Nat.zero_lt_succ, if_true, Nat.add_sub_cancel] at hp
      cases hd : cams[i]? with
      | none => rw [hd] at hp; exact Option.noConfusion hp
      | some d =>
        rw [hd] at hp
        have hdn : d.name = some p := hp
        have hat := prevNextCamera_at b cams i ⟨d, hd, hdn.trans hb.symm⟩
          (fun j hj c hc hcn => by
            have := index_unique cams hdistinct j i c d hc hd
              (hcn.trans (hb.trans hdn.symm))
            omega)
        refine ⟨if 0 < i then (cams[i - 1]?).bind Camera.name else none, hat.trans ?_⟩
        simp [hc0, hn0]

/-- C10, on the array `[A, B, C]` with active camera `B`. -/
theorem prevNextCamera_inverse_witness :
    ∃ prev next,
      prevNextCamera ([cam "A", cam "B", cam "C"].map some) (some (cam "B"))
        = .ok [prev, next] ∧
      (∀ n, next = some n → ∀ b : Camera, b.name = some n →
        ∃ next2, prevNextCamera ([cam "A", cam "B", cam "C"].map some) (some b)
          = .ok [(cam "B").name, next2]) ∧
      (∀ p, prev = some p → ∀ b : Camera, b.name = some p →
        ∃ prev2, prevNextCamera ([cam "A", cam "B", cam "C"].map some) (some b)
          = .ok [prev2, (cam "B").name]) :=
  prevNextCamera_inverse [cam "A", cam "B", cam "C"] (cam "B") (by decide)
    ⟨cam "B", by decide, rfl⟩

/-- C1: for every camera array (`null` entries and records with an empty or
missing name included) and every search text, `selectCameras` returns an array
in which every entry is a record whose name is a non-empty string. -/
theorem selectCameras_named (toLowerCase : JSString → JSString) (cams : List Entry)
    (searchText : Option JSString) :
    ∃ out, selectCameras toLowerCase cams searchText = .ok out ∧
      ∀ e ∈ out, ∃ c s, e = some c ∧ c.name = some s ∧ s ≠ [] := by
  refine ⟨_, selectCameras_eq toLowerCase cams searchText, ?_⟩
  intro e he
  exact (isNamed_iff e).mp
    (kept_isNamed toLowerCase cams (searchText.getD []) e ((mem_sortedByName _ e).mp he))

/-- C2: for every camera array and every search text, the result of
`selectCameras` is sorted ascending by name: the names at two adjacent
positions, and more generally at any two positions `i < j`, are strings in
lexicographic order `≤`. -/
theorem selectCameras_sorted (toLowerCase : JSString → JSString) (cams : List Entry)
    (searchText : Option JSString) :
    ∃ out, selectCameras toLowerCase cams searchText = .ok out ∧
      (∀ i : Nat, i + 1 < out.length →
        ∃ c d s t, out[i]? = some (some c) ∧ out[i + 1]? = some (some d) ∧
          c.name = some s ∧ d.name = some t ∧ LexLe s t) ∧
      (∀ i j : Nat, i < j → j < out.length →
        ∃ c d s t, out[i]? = some (some c) ∧ out[j]? = some (some d) ∧
          c.name = some s ∧ d.name = some t ∧ LexLe s t) := by
  refine ⟨_, selectCameras_eq toLowerCase cams searchText, ?_, ?_⟩
  · intro i hi
    exact sortedByName_ordered _ (kept_isNamed toLowerCase cams (searchText.getD []))
      i (i + 1) (Nat.lt_succ_self i) hi
  · intro i j hij hj
    exact sortedByName_ordered _ (kept_isNamed toLowerCase cams (searchText.getD []))
      i j hij hj

/-- C3: with an empty search text, and likewise with the search text omitted,
`selectCameras` returns a permutation of the entries of the input that are
records with a non-empty name (each as often as it occurs in the input), in
ascending order of name; on `[Bravo, "", Alpha]` it returns `[Alpha, Bravo]`. -/
theorem selectCameras_empty_search (toLowerCase : JSString → JSString)
    (cams : List Entry) :
    selectCameras toLowerCase cams none = selectCameras toLowerCase cams (some []) ∧
    (∃ out, selectCameras toLowerCase cams (some []) = .ok out ∧
      out.Perm (cams.filter isNamed) ∧
      (∀ e : Entry, out.countP (fun x => decide (x = e))
        = if isNamed e = true then cams.countP (fun x => decide (x = e)) else 0) ∧
      (∀ i : Nat, i + 1 < out.length →
        ∃ c d s t, out[i]? = some (some c) ∧ out[i + 1]? = some (some d) ∧
          c.name = some s ∧ d.name = some t ∧ LexLe s t)) ∧
    selectCameras toLowerCase [some (cam "Bravo"), some (cam ""), some (cam "Alpha")] (some [])
      = .ok [some (cam "Alpha"), some (cam "Bravo")] := by
  have hnamed : ∀ e ∈ cams.filter isNamed, isNamed e = true :=
    fun e he => (List.mem_filter.mp he).2
  refine ⟨rfl, ⟨_, selectCameras_eq_empty toLowerCase cams, ?_, ?_, ?_⟩, ?_⟩
  · exact sortedByName_perm _
  · intro e
    exact ((sortedByName_perm (cams.filter isNamed)).countP_eq _).trans
      (countP_filter_isNamed cams e)
  · intro i hi
    exact sortedByName_ordered _ hnamed i (i + 1) (Nat.lt_succ_self i) hi
  · rw [selectCameras_eq_empty]
    decide

/-- C4: for a non-empty search text, `selectCameras` returns exactly the
entries of its empty-search result whose name matches the query, in the same
order: they are the named input records whose lower-cased name contains the
lower-cased query as a contiguous part, each as often as in the input, and the
result is a sublist of the empty-search result. -/
theorem selectCameras_search (toLowerCase : JSString → JSString) (cams : List Entry)
    (q : JSString) (hq : q ≠ []) :
    ∃ out out0, selectCameras toLowerCase cams (some q) = .ok out ∧
      selectCameras toLowerCase cams (some []) = .ok out0 ∧
      out = out0.filter (nameMatches toLowerCase q) ∧
      out.Perm (cams.filter (fun e => isNamed e && nameMatches toLowerCase q e)) ∧
      out.Sublist out0 ∧
      (∀ e : Entry, (isNamed e && nameMatches toLowerCase q e) = true ↔
        ∃ c s, e = some c ∧ c.name = some s ∧ s ≠ [] ∧
          toLowerCase q <:+: toLowerCase s) := by
  have hqe : q.isEmpty = false := by cases q <;> simp_all
  have hout := selectCameras_eq toLowerCase cams (some q)
  simp only [Option.getD_some, hqe, Bool.false_eq_true, if_false] at hout
  have hnamed : ∀ e ∈ cams.filter isNamed, isNamed e = true :=
    fun e he => (List.mem_filter.mp he).2
  have hcomm := sortedByName_filter (nameMatches toLowerCase q) (cams.filter isNamed) hnamed
  refine ⟨_, _, hout, selectCameras_eq_empty toLowerCase cams, hcomm, ?_, ?_, ?_⟩
  · refine (sortedByName_perm _).trans ?_
    rw [List.filter_filter]
    refine List.Perm.of_eq (List.filter_congr (fun e _ => ?_))
    exact Bool.and_comm _ _
  · rw [hcomm]
    exact List.filter_sublist _
  · intro e
    rw [Bool.and_eq_true, isNamed_iff]
    constructor
    · rintro ⟨⟨c, s, rfl, hs, hne⟩, hm⟩
      refine ⟨c, s, rfl, hs, hne, ?_⟩
      simp only [nameMatches, optName, hs] at hm
      exact (includes_iff_contiguous _ _).mp hm
    · rintro ⟨c, s, rfl, hs, hne, hinf⟩
      refine ⟨⟨c, s, rfl, hs, hne⟩, ?_⟩
      simp only [nameMatches, optName, hs]
      exact (includes_iff_contiguous _ _).mpr hinf

/-- C4, searching `"ra"` over `[Bravo, "", Alpha]`: the result is `[Bravo]`. -/
theorem selectCameras_search_witness :
    js "ra" ≠ [] ∧
    selectCameras asciiLower [some (cam "Bravo"), some (cam ""), some (cam "Alpha")]
      (some (js "ra")) = .ok [some (cam "Bravo")] := by
  have hq : js "ra" ≠ [] := by decide
  obtain ⟨out, out0, hout, hout0, hfilter, _⟩ :=
    selectCameras_search asciiLower
      [some (cam "Bravo"), some (cam ""), some (cam "Alpha")] (js "ra") hq
  have h0 : out0 = [some (cam "Alpha"), some (cam "Bravo")] :=
    Except.ok.inj (hout0.symm.trans (by decide))
  refine ⟨hq, ?_⟩
  rw [hout, hfilter, h0]
  decide

/-- C5: `selectCameras` is idempotent for a fixed search text: it returns an
array, and applied to that array with the same search text it returns the same
array again. -/
theorem selectCameras_idempotent (toLowerCase : JSString → JSString)
    (cams : List Entry) (searchText : Option JSString) :
    ∃ out, selectCameras toLowerCase cams searchText = .ok out ∧
      selectCameras toLowerCase out searchText = .ok out := by
  refine ⟨_, selectCameras_eq toLowerCase cams searchText, ?_⟩
  have hk := kept_isNamed toLowerCase cams (searchText.getD [])
  rw [selectCameras_eq]
  congr 1
  by_cases hq : (searchText.getD []).isEmpty = true
  · simp only [hq, if_true] at hk ⊢
    have hfix : (sortedByName (cams.filter isNamed)).filter isNamed
        = sortedByName (cams.filter isNamed) :=
      List.filter_eq_self.mpr (fun e he => hk e ((mem_sortedByName _ e).mp he))
    rw [hfix]
    exact sortedByName_idem _ hk
  · have hq2 : (searchText.getD []).isEmpty = false := by simpa using hq
    simp only [hq2, Bool.false_eq_true, if_false] at hk ⊢
    have hfix1 : (sortedByName ((cams.filter isNamed).filter
          (nameMatches toLowerCase (searchText.getD [])))).filter isNamed
        = sortedByName ((cams.filter isNamed).filter
          (nameMatches toLowerCase (searchText.getD []))) :=
      List.filter_eq_self.mpr (fun e he => hk e ((mem_sortedByName _ e).mp he))
    have hfix2 : (sortedByName ((cams.filter isNamed).filter
          (nameMatches toLowerCase (searchText.getD [])))).filter
          (nameMatches toLowerCase (searchText.getD []))
        = sortedByName ((cams.filter isNamed).filter
          (nameMatches toLowerCase (searchText.getD []))) :=
      List.filter_eq_self.mpr (fun e he =>
        (List.mem_filter.mp ((mem_sortedByName _ e).mp he)).2)
    rw [hfix1, hfix2]
    exact sortedByName_idem _ hk

/-- C9: in `CameraConsole`, for every host-supplied camera array and active
camera, the selector and the locator return, and each navigation button is
enabled exactly when its name is not `undefined`, which is exactly when there
is an active camera and the selected array holds a record at the looked-up
index minus one (previous) or plus one (next); an enabled button's target name
is a non-empty string. -/
theorem CameraConsole_buttons (toLowerCase : JSString → JSString) (data : Data) :
    ∃ cameras names tb,
      selectCameras toLowerCase data.cameras none = .ok cameras ∧
      prevNextCamera cameras data.activeCamera = .ok names ∧
      CameraConsole toLowerCase data = .ok tb ∧
      (tb.prevCameraName, tb.nextCameraName) = destructure2 names ∧
      (tb.prevDisabled = false ↔ tb.prevCameraName ≠ none) ∧
      (tb.nextDisabled = false ↔ tb.nextCameraName ≠ none) ∧
      (tb.prevDisabled = false ↔
        ∃ active index e, data.activeCamera = some active ∧
          findIndex (sameName active) cameras = .ok index ∧
          arrGet cameras (index - 1) = some e) ∧
      (tb.nextDisabled = false ↔
        ∃ active index e, data.activeCamera = some active ∧
          findIndex (sameName active) cameras = .ok index ∧
          arrGet cameras (index + 1) = some e) ∧
      (tb.prevDisabled = false → ∃ s, tb.prevCameraName = some s ∧ s ≠ []) ∧
      (tb.nextDisabled = false → ∃ s, tb.nextCameraName = some s ∧ s ≠ []) := by
  have hsel : selectCameras toLowerCase data.cameras none
      = .ok (sortedByName (data.cameras.filter isNamed)) :=
    selectCameras_eq toLowerCase data.cameras none
  have hnamed : ∀ e ∈ sortedByName (data.cameras.filter isNamed), isNamed e = true :=
    fun e he => (List.mem_filter.mp ((mem_sortedByName _ e).mp he)).2
  generalize sortedByName (data.cameras.filter isNamed) = cameras at hsel hnamed
  cases hact : data.activeCamera with
  | none =>
    refine ⟨cameras, [], ⟨none, none, true, true⟩, hsel, rfl, ?_, rfl, ?_⟩
    · simp only [CameraConsole, hsel, hact, prevNextCamera]
      rfl
    · simp
  | some active =>
    obtain ⟨index, hidx⟩ := findIndexFrom_named active cameras 0 hnamed
    have hfi : findIndex (sameName active) cameras = .ok index := hidx
    have hpn : prevNextCamera cameras (some active)
        = .ok [nameAt cameras (index - 1), nameAt cameras (index + 1)] := by
      simp only [prevNextCamera, hfi]
    refine ⟨cameras, _, ⟨nameAt cameras (index - 1), nameAt cameras (index + 1),
      !truthy (nameAt cameras (index - 1)), !truthy (nameAt cameras (index + 1))⟩,
      hsel, hpn, ?_, rfl, ?_⟩
    · simp only [CameraConsole, hsel, hact, hpn]
      rfl
    · have hp := nameAt_named cameras hnamed (index - 1)
      have hn := nameAt_named cameras hnamed (index + 1)
      have key : ∀ k : Int,
          ((arrGet cameras k = none ∧ nameAt cameras k = none) ∨
            (∃ e s, arrGet cameras k = some e ∧ nameAt cameras k = some s ∧ s ≠ [] ∧
              optName e = some s)) →
          ((!truthy (nameAt cameras k)) = false ↔ nameAt cameras k ≠ none) ∧
          ((!truthy (nameAt cameras k)) = false ↔ ∃ e, arrGet cameras k = some e) ∧
          ((!truthy (nameAt cameras k)) = false →
            ∃ s, nameAt cameras k = some s ∧ s ≠ []) := by
        intro k hk
        rcases hk with ⟨ha, hn⟩ | ⟨e, s, ha, hn, hne, _⟩
        · simp [ha, hn, truthy]
        · have ht : truthy (some s) = true := (truthy_iff _).mpr ⟨s, rfl, hne⟩
          simp [ha, hn, ht, hne]
      obtain ⟨p1, p2, p3⟩ := key _ hp
      obtain ⟨n1, n2, n3⟩ := key _ hn
      refine ⟨p1, n1, ?_, ?_, p3, n3⟩
      · rw [p2]
        constructor
        · rintro ⟨e, he⟩
          exact ⟨active, index, e, rfl, hfi, he⟩
        · rintro ⟨a2, i2, e, ha2, hi2, he⟩
          cases ha2
          rw [hfi] at hi2
          cases hi2
          exact ⟨e, he⟩
      · rw [n2]
        constructor
        · rintro ⟨e, he⟩
          exact ⟨active, index, e, rfl, hfi, he⟩
        · rintro ⟨a2, i2, e, ha2, hi2, he⟩
          cases ha2
          rw [hfi] at hi2
          cases hi2
          exact ⟨e, he⟩

end Tgui
